import Mathlib

/-!
Verification of the tag/view resolution engine of the `thing-list`
Obsidian vault scripts (`src/config/core.js` and the revisions of the same
script kept in the repository, here called `part_000` … `part_003`).

Strings are modelled as `List Char` (`Str`): JavaScript string primitives
(`split`, `slice`, `startsWith`, `endsWith`, `includes`, first-occurrence
`replace`) become executable functions on character lists, each translated
from the corresponding JS call.  JS objects used as rule tables become
association lists (`List (key × value)`); `Object.keys` is `List.map
Prod.fst` (insertion order), and indexing `obj[k]` is `List.lookup`.
The Obsidian vault (`app.vault`, `app.metadataCache`) is an explicit
environment value.
-/

namespace ThingList

/-- A JavaScript string, as its list of characters. -/
abbrev Str := List Char

/-- Conversion from a Lean string literal to the model's strings. -/
def str (s : String) : Str := s.toList

/-- JS `s.split(sep)` for a one-character separator: always returns a
nonempty list of (possibly empty) segments. -/
def splitChar (sep : Char) : Str → List Str
  | [] => [[]]
  | c :: rest =>
    match splitChar sep rest with
    | [] => [[]]
    | s :: ss => if c = sep then [] :: s :: ss else (c :: s) :: ss

/-- `Array.prototype.join(sep)` for a one-character separator. -/
def joinChar (sep : Char) : List Str → Str
  | [] => []
  | [s] => s
  | s :: rest => s ++ sep :: joinChar sep rest

/-- JS `s.replace(a, b)` with one-character pattern: replaces only the
first occurrence. -/
def replaceFirst (a b : Char) : Str → Str
  | [] => []
  | c :: cs => if c = a then b :: cs else c :: replaceFirst a b cs

/-- `trimSlashes` (src/config/core.js:698-707): strips a single leading
and a single trailing `'/'`, each only if present.  `startsWith("/")` is
`head? = some '/'`, `slice(1)` is `tail`, `endsWith("/")` is
`getLast? = some '/'` and `slice(0, -1)` is `dropLast`. -/
def trimSlashes (s : Str) : Str :=
  let s1 := if s.head? = some '/' then s.tail else s
  if s1.getLast? = some '/' then s1.dropLast else s1

/-- JS `path.slice(start, -3)`: the characters from index `start` up to
three before the end (clamped). -/
def sliceToMinus3 (start : Nat) (p : Str) : Str :=
  (p.take (p.length - 3)).drop start

/-- A user custom-view table: `ViewName → (tag_names) => boolean`, as an
association list in insertion order (`CustomViews` of core.js). -/
abbrev CustomViews := List (Str × (List Str → Bool))

/-- A custom-tag table: `TagName → (view_name) => boolean`
(`CustomTags` of core.js). -/
abbrev CustomTags := List (Str × (Str → Bool))

/-- The user configuration of `src/config/user.js`: `VIEWS_PATH`,
`CUSTOM_VIEWS` and `CUSTOM_TAGS` (the shipped defaults are `"Views"` and
two empty tables). -/
structure Config where
  viewsPath : Str
  userViews : CustomViews
  userTags : CustomTags

/-- A vault file as the scripts see it: `file.path`, `file.parent.path`
and the frontmatter `tags` read through `app.metadataCache.getFileCache`
(`none` models a missing frontmatter or missing `tags` property). -/
structure VFile where
  path : Str
  parentPath : Str
  tags : Option (List Str)

/-- The Obsidian vault environment: `app.vault.getFiles()` and
`app.metadataCache.getCachedFiles()`. -/
structure Vault where
  files : List VFile
  cachedFiles : List Str

/-- `Object.keys(CORE_CUSTOM_VIEWS)`: the three built-in view names
(core.js:65-86, default names). -/
def coreCustomViewNames : List Str := [str "All", str "Untagged", str "Others"]

/-- The `Archive` rule of `CORE_CUSTOM_TAGS` (core.js:90-93):
`(view_name) => view_name === "Archive"`. -/
def archiveRule (view_name : Str) : Bool := view_name == str "Archive"

/-- `CORE_CUSTOM_TAGS` (core.js:90-93). -/
def coreCustomTags : CustomTags := [(str "Archive", archiveRule)]

/-- `Object.keys(CORE_CUSTOM_TAGS)`. -/
def coreCustomTagNames : List Str := coreCustomTags.map Prod.fst

/-- `regularViewMatchesTags` (core.js:485-520): whether a regular view
matches at least one tag.  The view name is trimmed, only its last `/`
segment is kept; a nested view (containing `' '`) matches a tag whose
leading `/`-segments equal the view's segments; a flat view matches a tag
whose first segment equals it. -/
def regularViewMatchesTags (view_name : Str) (tag_names : List Str) : Bool :=
  let v0 := trimSlashes view_name
  let split_view_name := splitChar '/' v0
  let v := split_view_name.getLastD []
  tag_names.any fun tag_name =>
    if v.contains ' ' then
      let view_name_split := splitChar ' ' v
      let tag_name_split := splitChar '/' tag_name
      if view_name_split.length > tag_name_split.length then false
      else (view_name_split.zip tag_name_split).all fun p => p.1 == p.2
    else
      (splitChar '/' tag_name).headD [] == v

/-- `getInitiatedViewNames` (core.js:676-690): every cached file path that
`startsWith` the trimmed views path, mapped through
`slice(views_path.length + 1, -3)`. -/
def getInitiatedViewNames (env : Vault) (views_path : Str) : List Str :=
  let vp := trimSlashes views_path
  let view_paths := env.cachedFiles.filter fun p => vp.isPrefixOf p
  let views_path_length := vp.length + 1
  view_paths.map (sliceToMinus3 views_path_length)

/-- The `Others` predicate of `CORE_CUSTOM_VIEWS` in src/config/core.js
(lines 68-85): an initiated view excludes the thing as soon as its name is
a user custom-view key (`user_custom_view_names.includes(view_name)`), or
a regular match succeeds; core custom view names are skipped.  The loop
with `continue`/early `return false` is an `all`. -/
def othersPredCore (cfg : Config) (env : Vault) (tag_names : List Str) : Bool :=
  let user_custom_view_names := cfg.userViews.map Prod.fst
  (getInitiatedViewNames env cfg.viewsPath).all fun view_name =>
    if view_name ∈ coreCustomViewNames then true
    else !(decide (view_name ∈ user_custom_view_names)
            || regularViewMatchesTags view_name tag_names)

/-- The `Others` predicate of the `part_003` revision (lines 91-110): a
user custom view excludes the thing only when its own predicate returns
true on the tags (`user_custom_view_names.includes(view_name) &&
CUSTOM_VIEWS[view_name](tag_names)`). -/
def othersPredPart3 (cfg : Config) (env : Vault) (tag_names : List Str) : Bool :=
  (getInitiatedViewNames env cfg.viewsPath).all fun view_name =>
    if view_name ∈ coreCustomViewNames then true
    else !((match List.lookup view_name cfg.userViews with
            | some p => p tag_names
            | none => false)
            || regularViewMatchesTags view_name tag_names)

/-- `CORE_CUSTOM_VIEWS` (core.js:65-86): `All`, `Untagged`, `Others`. -/
def coreCustomViews (cfg : Config) (env : Vault) : CustomViews :=
  [(str "All", fun _ => true),
   (str "Untagged", fun tag_names => tag_names.length == 0),
   (str "Others", othersPredCore cfg env)]

/-- One step of the tag-rule pass of `viewMatchesTags` (core.js:434-447):
a user custom tag overwrites a core custom tag; a tag with no rule imposes
nothing. -/
def tagRuleCheck (custom_tags : CustomTags) (view_name tag_name : Str) : Bool :=
  match List.lookup tag_name custom_tags with
  | some rule => rule view_name
  | none =>
    match List.lookup tag_name coreCustomTags with
    | some rule => rule view_name
    | none => true

/-- The loop of core.js:453-458 (`while (view_name_split.length > 0)
unshift(pop() + "/" + matching_view_names[0])`), processing the popped
segments right to left: `hd` is the variant built so far (the head of the
array), `acc` the rest of the array. -/
def buildVariantsLoop : List Str → Str → List Str → List Str
  | [], hd, acc => hd :: acc
  | s :: rest, hd, acc => buildVariantsLoop rest (s ++ '/' :: hd) (hd :: acc)

/-- `matching_view_names` of `viewMatchesTags` (core.js:449-458): push
`"/" + view_name`, unshift the popped leaf, then prepend each longer
suffix. -/
def matchingViewNames (view_name : Str) : List Str :=
  match (splitChar '/' view_name).reverse with
  | [] => ['/' :: view_name]
  | leaf :: rest => buildVariantsLoop rest leaf ['/' :: view_name]

/-- `viewMatchesTags` (core.js:413-473).  `cfg` supplies the defaults of
the omitted `kwargs` (the claims always use those defaults), so
`custom_views`/`custom_tags` are passed explicitly; `tag_names?` is the
possibly-`null` Dataview tag list.  The tag-rule loop with early
`return false` is an `all`; the variant loop checking the user table and
then the core table is a `findSome?` of the two lookups. -/
def viewMatchesTags (cfg : Config) (env : Vault)
    (custom_views : CustomViews) (custom_tags : CustomTags)
    (view_name : Str) (tag_names? : Option (List Str)) : Bool :=
  let tag_names := tag_names?.getD []
  let v := trimSlashes view_name
  if tag_names.all (fun tag_name => tagRuleCheck custom_tags v tag_name) then
    match (matchingViewNames v).findSome? (fun m =>
        (List.lookup m custom_views).orElse
          (fun _ => List.lookup m (coreCustomViews cfg env))) with
    | some p => p tag_names
    | none => regularViewMatchesTags v tag_names
  else false

/-- `getExistingTagNames` (core.js:650-663): over the files whose path
`startsWith` the trimmed things path, `tag_names.add(...frontmatter.tags)`
passes only the FIRST tag to `Set.add` (spread into a one-argument
method), guarded by a present nonempty `tags`; the `Set` keeps insertion
order and deduplicates. -/
def getExistingTagNames (env : Vault) (things_path : Str) : List Str :=
  let tp := trimSlashes things_path
  let thing_files := env.files.filter fun f => tp.isPrefixOf f.path
  thing_files.foldl (fun acc f =>
    match f.tags with
    | some (t :: _) => if t ∈ acc then acc else acc ++ [t]
    | _ => acc) []

/-- One step of the innermost `for (const tag of tags)` loop of the
subfolder-derivation block (core.js:598-600): `Set.add(full_subfolder +
tag)`, i.e. append unless already present. -/
def pushCandidate (full_subfolder : Str) (a : List Str) (tag : Str) : List Str :=
  if full_subfolder ++ tag ∈ a then a else a ++ [full_subfolder ++ tag]

/-- The whole `for (const tag of tags)` loop. -/
def pushTags (full_subfolder : Str) (tags : List Str) (a : List Str) : List Str :=
  tags.foldl (pushCandidate full_subfolder) a

/-- One step of the `for (const subfolder of subfolders_array)` loop
(core.js:596-601): the state is the pair of the growing `full_subfolder`
and the candidate `Set`. -/
def subfolderStep (tags : List Str) (st : Str × List Str) (subfolder : Str) :
    Str × List Str :=
  let full_subfolder := st.1 ++ subfolder ++ ['/']
  (full_subfolder, pushTags full_subfolder tags st.2)

/-- The body of the `for (const file of thing_subfolder_files)` loop
(core.js:586-602): skip unless a nonempty frontmatter tag list, convert
the tags' first `/` to a space, split the parent path past the
things-path prefix into subfolder segments, then run the nested loops. -/
def fileStep (things_path_length : Nat) (acc : List Str) (f : VFile) : List Str :=
  match f.tags with
  | some (t :: ts) =>
    let tags := (t :: ts).map (replaceFirst '/' ' ')
    let subfolders_array := splitChar '/' (f.parentPath.drop things_path_length)
    (subfolders_array.foldl (subfolderStep tags) (([] : Str), acc)).2
  | _ => acc

/-- The subfolder-derivation block of `getAllViews`, parameterized by the
path used in the `file.parent.path.startsWith(… + "/")` filter: the
core.js revision (line 582) passes the VIEWS path there while slicing by
`things_path.length + 1`, the `part_003` revision (line 862) passes the
things path. -/
def subfolderTagNames (env : Vault) (filter_path things_path : Str) : List Str :=
  let thing_subfolder_files :=
    env.files.filter fun f => (filter_path ++ ['/']).isPrefixOf f.parentPath
  let things_path_length := things_path.length + 1
  thing_subfolder_files.foldl (fileStep things_path_length) []

/-- The `full_subfolder` string accumulated by the subfolder loop after
consuming the first `n` segments of `subfolders_array`, starting from
`cur`: each step appends `segment ++ "/"`. -/
def sfPrefix (cur : Str) (subs : List Str) : Nat → Str
  | 0 => cur
  | n + 1 =>
    match subs with
    | [] => cur
    | sub :: rest => sfPrefix (cur ++ sub ++ ['/']) rest n

/-- Lexicographic boolean comparison of strings, the order of the default
JS `Array.prototype.sort` comparator on (ASCII) strings. -/
def strLeB : Str → Str → Bool
  | [], _ => true
  | _ :: _, [] => false
  | a :: as, b :: bs => if a < b then true else if a = b then strLeB as bs else false

/-- `strLeB` as a relation, for `List.insertionSort` and `List.Sorted`. -/
def strLe (a b : Str) : Prop := strLeB a b = true

instance : DecidableRel strLe := fun a b => instDecidableEqBool (strLeB a b) true

/-- JS `array.sort()` on strings: some comparison sort under the
lexicographic comparator; equal keys are identical strings, so any
correct sort returns the same list, modelled by insertion sort. -/
def sortStr (l : List Str) : List Str := List.insertionSort strLe l

/-- The result of `getAllViews`. -/
structure AllViews where
  initiated : List Str
  uninitiated : List Str

/-- `getAllViews` (core.js:546-641), after its `kwargs` defaulting:
sorted initiated names; then the candidate uninitiated arrays (existing
tags with the first `/` replaced by a space, the optional subfolder
names, the custom view/tag keys) pushed in order while skipping names
already pushed or already initiated; then sorted. -/
def getAllViews (env : Vault) (calculate_subfolder_uninitiated : Bool)
    (views_path things_path : Str)
    (custom_views : CustomViews) (custom_tags : CustomTags) : AllViews :=
  let vp := trimSlashes views_path
  let tp := trimSlashes things_path
  let initiated_view_names := sortStr (getInitiatedViewNames env vp)
  let existing_tag_names :=
    (getExistingTagNames env tp).map (replaceFirst '/' ' ')
  let existing_tag_names :=
    if calculate_subfolder_uninitiated then
      existing_tag_names ++ subfolderTagNames env vp tp
    else existing_tag_names
  let user_custom_view_names := custom_views.map Prod.fst
  let user_custom_tag_names :=
    (custom_tags.map Prod.fst).map (replaceFirst '/' ' ')
  let core_custom_tag_names := coreCustomTagNames.map (replaceFirst '/' ' ')
  let possible_uninitiated_view_name_arrays :=
    [existing_tag_names, user_custom_view_names, coreCustomViewNames,
     user_custom_tag_names, core_custom_tag_names]
  let uninitiated_view_names :=
    possible_uninitiated_view_name_arrays.foldl (fun acc arr =>
      arr.foldl (fun acc name =>
        if name ∉ acc ∧ name ∉ initiated_view_names then acc ++ [name] else acc)
        acc) []
  ⟨initiated_view_names, sortStr uninitiated_view_names⟩

/-- `getAllViews` of the `part_003` revision (lines 824-923): line by
line the same as core.js's, except that the subfolder filter uses the
things path (`file.parent.path.startsWith(things_path + "/")`,
part_003:862). -/
def getAllViewsPart3 (env : Vault) (calculate_subfolder_uninitiated : Bool)
    (views_path things_path : Str)
    (custom_views : CustomViews) (custom_tags : CustomTags) : AllViews :=
  let vp := trimSlashes views_path
  let tp := trimSlashes things_path
  let initiated_view_names := sortStr (getInitiatedViewNames env vp)
  let existing_tag_names :=
    (getExistingTagNames env tp).map (replaceFirst '/' ' ')
  let existing_tag_names :=
    if calculate_subfolder_uninitiated then
      existing_tag_names ++ subfolderTagNames env tp tp
    else existing_tag_names
  let user_custom_view_names := custom_views.map Prod.fst
  let user_custom_tag_names :=
    (custom_tags.map Prod.fst).map (replaceFirst '/' ' ')
  let core_custom_tag_names := coreCustomTagNames.map (replaceFirst '/' ' ')
  let possible_uninitiated_view_name_arrays :=
    [existing_tag_names, user_custom_view_names, coreCustomViewNames,
     user_custom_tag_names, core_custom_tag_names]
  let uninitiated_view_names :=
    possible_uninitiated_view_name_arrays.foldl (fun acc arr =>
      arr.foldl (fun acc name =>
        if name ∉ acc ∧ name ∉ initiated_view_names then acc ++ [name] else acc)
        acc) []
  ⟨initiated_view_names, sortStr uninitiated_view_names⟩

/-!  Spec-side definitions, worded from the specification, to be compared
with the code-side ones. -/

/-- The variant search order as §4.3 of the spec words it: for a view
name with segments `s1/…/sN`, the list `[full name, suffix starting at
s2, …, leaf sN, "/" + full name]`. -/
def variantSearchOrder (view_name : Str) : List Str :=
  view_name ::
    (((splitChar '/' view_name).tails.drop 1).dropLast.map (joinChar '/')
      ++ ['/' :: view_name])

/-- `resolveViewRule` as the spec words it: walk the variants in order
and return the rule of the first variant that is a key in either table,
the user table winning at that variant. -/
def claimResolveViewRule (user core : CustomViews) : List Str → Option (List Str → Bool)
  | [] => none
  | m :: rest =>
    if m ∈ user.map Prod.fst ∨ m ∈ core.map Prod.fst then
      (List.lookup m user).orElse (fun _ => List.lookup m core)
    else claimResolveViewRule user core rest

/-- `resolveTagRule` as the spec words it: the user table checked first,
then the built-in table. -/
def resolveTagRule (custom_tags : CustomTags) (tag_name : Str) :
    Option (Str → Bool) :=
  (List.lookup tag_name custom_tags).orElse
    (fun _ => List.lookup tag_name coreCustomTags)

/-!  Concrete configurations and environments for counterexamples and
witnesses. -/

/-- The shipped `src/config/user.js` defaults: `VIEWS_PATH = "Views"`,
empty `CUSTOM_VIEWS` and `CUSTOM_TAGS`. -/
def cfgDefault : Config := ⟨str "Views", [], []⟩

/-- An empty vault. -/
def envEmpty : Vault := ⟨[], []⟩

/-- A constantly-false user custom-view predicate. -/
def falsePred : List Str → Bool := fun _ => false

/-- A configuration with one user custom view `V` whose predicate is
constantly false. -/
def cfgUserV : Config := ⟨str "Views", [(str "V", falsePred)], []⟩

/-- A vault whose only cached file is the initiated view file
`Views/V.md`. -/
def envViewV : Vault := ⟨[], [str "Views/V.md"]⟩

/-- A vault with one thing `Things/a/b/t.md` (parent folder
`Things/a/b`) tagged `x`, and nothing else. -/
def envThingAB : Vault :=
  ⟨[⟨str "Things/a/b/t.md", str "Things/a/b", some [str "x"]⟩], []⟩

/-- A vault whose cached files are `Views/a.md` and a non-markdown
`Views/a.xy`, two distinct paths that map to the same view name. -/
def envDupA : Vault := ⟨[], [str "Views/a.md", str "Views/a.xy"]⟩

/-- The leading strip of `trimSlashes` on its own, for reasoning about
the composition of the two strips. -/
def dropLead (s : Str) : Str := if s.head? = some '/' then s.tail else s

/-- A constantly-true user custom-view predicate. -/
def truePred : List Str → Bool := fun _ => true

/-- A user custom-tag rule allowing only the view `Q`. -/
def qOnlyRule : Str → Bool := fun view_name => view_name == str "Q"

/-- A vault whose only cached file, `ViewsExtra/a.md`, is in a sibling
folder of the views root `Views`, not under it. -/
def envSibling : Vault := ⟨[], [str "ViewsExtra/a.md"]⟩

/-! ### Helper lemmas -/

theorem splitChar_ne_nil (sep : Char) : ∀ s : Str, splitChar sep s ≠ []
  | [] => by simp [splitChar]
  | c :: rest => by
    simp only [splitChar]
    rcases h : splitChar sep rest with _ | ⟨a, as⟩
    · simp
    · dsimp only
      split <;> simp

theorem joinChar_cons (sep : Char) (x : Str) (s : List Str) (h : s ≠ []) :
    joinChar sep (x :: s) = x ++ sep :: joinChar sep s := by
  cases s with
  | nil => exact absurd rfl h
  | cons a as => rfl

theorem joinChar_splitChar (sep : Char) : ∀ s : Str,
    joinChar sep (splitChar sep s) = s
  | [] => rfl
  | c :: rest => by
    have ih := joinChar_splitChar sep rest
    simp only [splitChar]
    rcases h : splitChar sep rest with _ | ⟨a, as⟩
    · exact absurd h (splitChar_ne_nil sep rest)
    · rw [h] at ih
      dsimp only
      by_cases hc : c = sep
      · subst hc
        rw [if_pos rfl, joinChar_cons _ _ _ (by simp), List.nil_append, ih]
      · rw [if_neg hc]
        cases as with
        | nil => simpa [joinChar] using congrArg (c :: ·) ih
        | cons b bs =>
          rw [joinChar_cons sep a (b :: bs) (by simp)] at ih
          rw [joinChar_cons sep (c :: a) (b :: bs) (by simp)]
          rw [List.cons_append, ih]

theorem buildVariantsLoop_spec :
    ∀ (rest : List Str) (suffix : List Str) (acc : List Str), suffix ≠ [] →
      buildVariantsLoop rest (joinChar '/' suffix) acc
        = (rest.reverse.tails.map fun t => joinChar '/' (t ++ suffix)) ++ acc
  | [], suffix, acc, _ => by simp [buildVariantsLoop]
  | s :: rest, suffix, acc, h => by
    have step : s ++ '/' :: joinChar '/' suffix = joinChar '/' (s :: suffix) :=
      (joinChar_cons '/' s suffix h).symm
    calc buildVariantsLoop (s :: rest) (joinChar '/' suffix) acc
        = buildVariantsLoop rest (joinChar '/' (s :: suffix))
            (joinChar '/' suffix :: acc) := by
          simp only [buildVariantsLoop, step]
      _ = (rest.reverse.tails.map fun t => joinChar '/' (t ++ (s :: suffix)))
            ++ (joinChar '/' suffix :: acc) :=
          buildVariantsLoop_spec rest (s :: suffix) _ (by simp)
      _ = ((s :: rest).reverse.tails.map fun t => joinChar '/' (t ++ suffix))
            ++ acc := by
          simp only [List.reverse_cons, List.tails_append, List.map_append,
            List.map_map, List.append_assoc]
          simp [Function.comp_def, List.tails]

theorem tails_ne_nil' {α : Type} (l : List α) : l.tails ≠ [] := by
  cases l <;> simp [List.tails]

/-- The code's variant list (core.js:449-458) is exactly the spec's
search order: all `/`-suffixes of the name from longest to shortest, then
the `/`-anchored full name. -/
theorem matchingViewNames_eq (view_name : Str) :
    matchingViewNames view_name = variantSearchOrder view_name := by
  have hnil := splitChar_ne_nil '/' view_name
  unfold matchingViewNames variantSearchOrder
  rcases hrev : (splitChar '/' view_name).reverse with _ | ⟨leaf, rest⟩
  · exact absurd (by simpa using congrArg List.reverse hrev) hnil
  have hsplit : splitChar '/' view_name = rest.reverse ++ [leaf] := by
    have := congrArg List.reverse hrev
    simpa using this
  have hloop := buildVariantsLoop_spec rest [leaf] ['/' :: view_name] (by simp)
  have h1 : (splitChar '/' view_name).tails.dropLast
      = rest.reverse.tails.map fun t => t ++ [leaf] := by
    rw [hsplit, List.tails_append,
      show ([leaf] : List Str).tails.tail = [[]] by simp [List.tails],
      List.dropLast_concat]
  have h2 : ((splitChar '/' view_name).tails.dropLast).map (joinChar '/')
      = view_name
        :: (((splitChar '/' view_name).tails.drop 1).dropLast).map (joinChar '/') := by
    rcases hcase : splitChar '/' view_name with _ | ⟨x, xs⟩
    · exact absurd hcase hnil
    · have htails : (x :: xs).tails = (x :: xs) :: xs.tails := by
        simp [List.tails]
      rw [htails, List.dropLast_cons_of_ne_nil (tails_ne_nil' xs), List.map_cons,
        List.drop_one, List.tail_cons]
      have : joinChar '/' (x :: xs) = view_name := by
        rw [← hcase]; exact joinChar_splitChar '/' view_name
      rw [this]
  calc buildVariantsLoop rest leaf ['/' :: view_name]
      = (rest.reverse.tails.map fun t => joinChar '/' (t ++ [leaf]))
          ++ ['/' :: view_name] := hloop
    _ = (((splitChar '/' view_name).tails.dropLast).map (joinChar '/'))
          ++ ['/' :: view_name] := by rw [h1, List.map_map]; rfl
    _ = (view_name
          :: (((splitChar '/' view_name).tails.drop 1).dropLast).map (joinChar '/'))
          ++ ['/' :: view_name] := by rw [h2]
    _ = view_name
          :: ((((splitChar '/' view_name).tails.drop 1).dropLast).map (joinChar '/')
            ++ ['/' :: view_name]) := rfl

theorem lookup_isSome_iff_mem_keys {α : Type} (k : Str) :
    ∀ tbl : List (Str × α), (List.lookup k tbl).isSome = true ↔ k ∈ tbl.map Prod.fst
  | [] => by
    constructor
    · intro h; exact absurd h (by simp [List.lookup])
    · intro h; exact absurd h (by simp)
  | (a, b) :: t => by
    by_cases h : k = a
    · subst h
      have hl : List.lookup k ((k, b) :: t) = some b := by
        simp [List.lookup]
      rw [hl, List.map_cons]
      exact ⟨fun _ => List.mem_cons_self _ _, fun _ => rfl⟩
    · have hb : (k == a) = false := beq_eq_false_iff_ne.mpr h
      have hl : List.lookup k ((a, b) :: t) = List.lookup k t := by
        simp [List.lookup, hb]
      rw [hl, List.map_cons, List.mem_cons]
      exact (lookup_isSome_iff_mem_keys k t).trans
        ⟨Or.inr, fun hor => hor.resolve_left h⟩

theorem lookup_eq_none_of_not_mem_keys {α : Type} (k : Str)
    (tbl : List (Str × α)) (h : k ∉ tbl.map Prod.fst) : List.lookup k tbl = none := by
  cases hl : List.lookup k tbl with
  | none => rfl
  | some v =>
    exact absurd ((lookup_isSome_iff_mem_keys k tbl).mp (by rw [hl]; rfl)) h

theorem mem_keys_of_lookup_some {α : Type} (k : Str) (v : α)
    (tbl : List (Str × α)) (h : List.lookup k tbl = some v) :
    k ∈ tbl.map Prod.fst :=
  (lookup_isSome_iff_mem_keys k tbl).mp (by rw [h]; rfl)

/-- The spec-worded first-key-in-either-table search equals the code's
loop over the variants (user lookup, else core lookup, first hit). -/
theorem claimResolveViewRule_eq_findSome (user core : CustomViews) :
    ∀ variants : List Str,
      claimResolveViewRule user core variants
        = variants.findSome? (fun m =>
            (List.lookup m user).orElse (fun _ => List.lookup m core))
  | [] => rfl
  | m :: rest => by
    simp only [claimResolveViewRule]
    cases hu : List.lookup m user with
    | some p =>
      rw [if_pos (Or.inl (mem_keys_of_lookup_some m p user hu)),
        @List.findSome?_cons_of_isSome Str (List Str → Bool)
          (fun m => (List.lookup m user).orElse (fun _ => List.lookup m core)) m rest
          (by show ((List.lookup m user).orElse (fun _ => List.lookup m core)).isSome = true
              rw [hu]; rfl)]
      rw [hu]
    | none =>
      cases hc : List.lookup m core with
      | some p =>
        rw [if_pos (Or.inr (mem_keys_of_lookup_some m p core hc)),
          @List.findSome?_cons_of_isSome Str (List Str → Bool)
            (fun m => (List.lookup m user).orElse (fun _ => List.lookup m core)) m rest
            (by show ((List.lookup m user).orElse (fun _ => List.lookup m core)).isSome = true
                rw [hu, hc]; rfl)]
        rw [hu, hc]
      | none =>
        have h1 : m ∉ user.map Prod.fst := fun hm =>
          absurd ((lookup_isSome_iff_mem_keys m user).mpr hm) (by rw [hu]; simp)
        have h2 : m ∉ core.map Prod.fst := fun hm =>
          absurd ((lookup_isSome_iff_mem_keys m core).mpr hm) (by rw [hc]; simp)
        rw [if_neg (not_or.mpr ⟨h1, h2⟩),
          @List.findSome?_cons_of_isNone Str (List Str → Bool)
            (fun m => (List.lookup m user).orElse (fun _ => List.lookup m core)) m rest
            (by show ((List.lookup m user).orElse (fun _ => List.lookup m core)).isNone = true
                rw [hu, hc]; rfl)]
        exact claimResolveViewRule_eq_findSome user core rest

/-! ### Lemmas about `trimSlashes` -/

theorem trimSlashes_eq_dropLead (s : Str) :
    trimSlashes s = (dropLead (dropLead s).reverse).reverse := by
  unfold trimSlashes dropLead
  have hrev : ∀ u : Str, u.reverse.tail.reverse = u.dropLast := by
    intro u
    induction u using List.reverseRecOn with
    | nil => rfl
    | append_singleton l a _ => simp
  by_cases h : (if s.head? = some '/' then s.tail else s).getLast? = some '/'
  · rw [if_pos h, List.head?_reverse, if_pos h, hrev]
  · rw [if_neg h, List.head?_reverse, if_neg h, List.reverse_reverse]

theorem dropLead_head (s : Str) (h : ¬ ['/', '/'] <+: s) :
    (dropLead s).head? ≠ some '/' := by
  unfold dropLead
  cases s with
  | nil => simp
  | cons c cs =>
    by_cases hc : c = '/'
    · subst hc
      rw [if_pos (by rfl)]
      cases cs with
      | nil => simp
      | cons d ds =>
        simp only [List.tail_cons, List.head?_cons, ne_eq, Option.some.injEq]
        intro hd
        exact h ⟨ds, by rw [hd]; rfl⟩
    · rw [if_neg (by simpa using hc)]
      simpa using hc

theorem dropLead_suffix (s : Str) : dropLead s <:+ s := by
  unfold dropLead
  split
  · exact List.tail_suffix s
  · exact List.suffix_refl s

theorem dropLead_of_head (s : Str) (h : s.head? ≠ some '/') : dropLead s = s :=
  if_neg h

theorem getLast?_dropLead_reverse (a : Str) (h : a.head? ≠ some '/') :
    (dropLead a.reverse).getLast? ≠ some '/' := by
  cases a with
  | nil => simp [dropLead]
  | cons c cs =>
    have hc : c ≠ '/' := by simpa using h
    rw [List.reverse_cons]
    unfold dropLead
    rcases hw : cs.reverse with _ | ⟨y, ys⟩
    · simp [hc]
    · by_cases hy : y = '/'
      · subst hy
        rw [List.cons_append, if_pos (by rfl), List.tail_cons]
        rw [List.getLast?_concat]
        simpa using hc
      · rw [List.cons_append, if_neg (by simpa using hy), ← List.cons_append,
          List.getLast?_concat]
        simpa using hc

/-- Under no leading `"//"`, the trimmed string does not start with `/`. -/
theorem trimSlashes_head (s : Str) (h1 : ¬ ['/', '/'] <+: s) :
    (trimSlashes s).head? ≠ some '/' := by
  rw [trimSlashes_eq_dropLead, List.head?_reverse]
  exact getLast?_dropLead_reverse (dropLead s) (dropLead_head s h1)

/-- Under no leading and no trailing `"//"`, the trimmed string does not
end with `/`. -/
theorem trimSlashes_getLast (s : Str)
    (h2 : ¬ ['/', '/'] <:+ s) : (trimSlashes s).getLast? ≠ some '/' := by
  rw [trimSlashes_eq_dropLead, List.getLast?_reverse]
  apply dropLead_head
  rw [show (['/', '/'] : Str) = ['/', '/'].reverse from rfl, List.reverse_prefix]
  intro hs
  exact h2 (hs.trans (dropLead_suffix s))

theorem trimSlashes_of_no_slash (s : Str) (h1 : s.head? ≠ some '/')
    (h2 : s.getLast? ≠ some '/') : trimSlashes s = s := by
  unfold trimSlashes
  rw [if_neg h1, if_neg h2]

/-! ### The lexicographic order used by the sorts -/

theorem strLeB_total : ∀ a b : Str, strLeB a b = true ∨ strLeB b a = true
  | [], _ => Or.inl rfl
  | _ :: _, [] => Or.inr rfl
  | a :: as, b :: bs => by
    unfold strLeB
    rcases lt_trichotomy a b with h | h | h
    · exact Or.inl (by rw [if_pos h])
    · subst h
      rw [if_neg (lt_irrefl a), if_pos rfl, if_neg (lt_irrefl a), if_pos rfl]
      exact strLeB_total as bs
    · exact Or.inr (by rw [if_pos h])

theorem strLeB_trans : ∀ a b c : Str,
    strLeB a b = true → strLeB b c = true → strLeB a c = true
  | [], _, _, _, _ => rfl
  | a :: as, [], _, hab, _ => by simp [strLeB] at hab
  | a :: as, b :: bs, [], _, hbc => by simp [strLeB] at hbc
  | a :: as, b :: bs, c :: cs, hab, hbc => by
    unfold strLeB at hab hbc ⊢
    by_cases h1 : a < b
    · by_cases h2 : b < c
      · rw [if_pos (lt_trans h1 h2)]
      · rw [if_neg h2] at hbc
        by_cases h3 : b = c
        · subst h3; rw [if_pos h1]
        · rw [if_neg h3] at hbc; exact absurd hbc (by simp)
    · rw [if_neg h1] at hab
      by_cases h4 : a = b
      · subst h4
        rw [if_pos rfl] at hab
        by_cases h2 : a < c
        · rw [if_pos h2]
        · rw [if_neg h2] at hbc ⊢
          by_cases h3 : a = c
          · rw [if_pos h3] at hbc ⊢
            exact strLeB_trans as bs cs hab hbc
          · rw [if_neg h3] at hbc; exact absurd hbc (by simp)
      · rw [if_neg h4] at hab; exact absurd hab (by simp)

instance : IsTotal Str strLe := ⟨fun a b => strLeB_total a b⟩

instance : IsTrans Str strLe := ⟨fun a b c => strLeB_trans a b c⟩

/-- The result of the modelled JS sort is sorted under the lexicographic
order. -/
theorem sortStr_sorted (l : List Str) : (sortStr l).Sorted strLe :=
  List.sorted_insertionSort strLe l

theorem sortStr_perm (l : List Str) : List.Perm (sortStr l) l :=
  List.perm_insertionSort strLe l

/-! ### The deduplicating push loop of `getAllViews` -/

theorem dedupPush_inner_mem (init : List Str) :
    ∀ (arr acc : List Str) (x : Str),
      x ∈ arr.foldl (fun acc name =>
          if name ∉ acc ∧ name ∉ init then acc ++ [name] else acc) acc →
      x ∈ acc ∨ x ∉ init
  | [], acc, x, hx => Or.inl hx
  | n :: arr, acc, x, hx => by
    rcases dedupPush_inner_mem init arr _ x hx with h | h
    · dsimp only at h
      by_cases hn : n ∉ acc ∧ n ∉ init
      · rw [if_pos hn] at h
        rcases List.mem_append.mp h with h | h
        · exact Or.inl h
        · simp only [List.mem_singleton] at h
          subst h
          exact Or.inr hn.2
      · rw [if_neg hn] at h
        exact Or.inl h
    · exact Or.inr h

theorem dedupPush_inner_nodup (init : List Str) :
    ∀ (arr acc : List Str), acc.Nodup →
      (arr.foldl (fun acc name =>
          if name ∉ acc ∧ name ∉ init then acc ++ [name] else acc) acc).Nodup
  | [], acc, h => h
  | n :: arr, acc, h => by
    apply dedupPush_inner_nodup init arr
    dsimp only
    by_cases hn : n ∉ acc ∧ n ∉ init
    · rw [if_pos hn]
      simp [List.nodup_append, h, hn.1]
    · rw [if_neg hn]
      exact h

theorem dedupPush_mem (init : List Str) :
    ∀ (arrays : List (List Str)) (acc : List Str) (x : Str),
      x ∈ arrays.foldl (fun acc arr =>
          arr.foldl (fun acc name =>
            if name ∉ acc ∧ name ∉ init then acc ++ [name] else acc) acc) acc →
      x ∈ acc ∨ x ∉ init
  | [], acc, x, hx => Or.inl hx
  | arr :: arrays, acc, x, hx => by
    rcases dedupPush_mem init arrays _ x hx with h | h
    · exact dedupPush_inner_mem init arr acc x h
    · exact Or.inr h

theorem dedupPush_nodup (init : List Str) :
    ∀ (arrays : List (List Str)) (acc : List Str), acc.Nodup →
      (arrays.foldl (fun acc arr =>
          arr.foldl (fun acc name =>
            if name ∉ acc ∧ name ∉ init then acc ++ [name] else acc) acc) acc).Nodup
  | [], _, h => h
  | arr :: arrays, acc, h =>
    dedupPush_nodup init arrays _ (dedupPush_inner_nodup init arr acc h)

/-! ### Membership in the subfolder-derivation candidates -/

theorem mem_pushTags_of_mem (full : Str) :
    ∀ (tags a : List Str) (y : Str), y ∈ a → y ∈ pushTags full tags a
  | [], _, _, hy => hy
  | tg :: tags, a, y, hy => by
    apply mem_pushTags_of_mem full tags
    unfold pushCandidate
    split
    · exact hy
    · exact List.mem_append_left _ hy

theorem mem_pushTags_self (full : Str) :
    ∀ (tags a : List Str) (tg : Str), tg ∈ tags → full ++ tg ∈ pushTags full tags a
  | [], _, _, htg => absurd htg (List.not_mem_nil _)
  | tg' :: tags, a, tg, htg => by
    rcases List.mem_cons.mp htg with h | h
    · subst h
      apply mem_pushTags_of_mem full tags
      unfold pushCandidate
      split
      case isTrue hin => exact hin
      case isFalse _ => exact List.mem_append_right _ (List.mem_singleton_self _)
    · exact mem_pushTags_self full tags (pushCandidate full a tg') tg h

theorem mem_subfolderFold_of_mem (tags : List Str) :
    ∀ (subs : List Str) (st : Str × List Str) (y : Str), y ∈ st.2 →
      y ∈ (subs.foldl (subfolderStep tags) st).2
  | [], _, _, hy => hy
  | sub :: subs, st, y, hy =>
    mem_subfolderFold_of_mem tags subs (subfolderStep tags st sub) y
      (mem_pushTags_of_mem _ tags st.2 y hy)

theorem sfPrefix_zero (cur : Str) (subs : List Str) : sfPrefix cur subs 0 = cur := by
  cases subs <;> rfl

theorem sfPrefix_succ (cur sub : Str) (rest : List Str) (n : Nat) :
    sfPrefix cur (sub :: rest) (n + 1) = sfPrefix (cur ++ sub ++ ['/']) rest n := rfl

theorem subfolderStep_snd (tags : List Str) (cur sub : Str) (acc : List Str) :
    (subfolderStep tags (cur, acc) sub).2 = pushTags (cur ++ sub ++ ['/']) tags acc := rfl

theorem mem_subfolderFold_prefix (tags : List Str) (tg : Str) (htg : tg ∈ tags) :
    ∀ (subs : List Str) (cur : Str) (acc : List Str) (k : Nat), k < subs.length →
      sfPrefix cur subs (k + 1) ++ tg
        ∈ (subs.foldl (subfolderStep tags) (cur, acc)).2
  | [], _, _, k, hk => absurd hk (Nat.not_lt_zero k)
  | sub :: subs, cur, acc, 0, _ => by
    rw [List.foldl_cons, sfPrefix_succ, sfPrefix_zero]
    have h : (cur ++ sub ++ ['/']) ++ tg ∈ (subfolderStep tags (cur, acc) sub).2 := by
      rw [subfolderStep_snd]
      exact mem_pushTags_self (cur ++ sub ++ ['/']) tags acc tg htg
    exact mem_subfolderFold_of_mem tags subs (subfolderStep tags (cur, acc) sub) _ h
  | sub :: subs, cur, acc, k + 1, hk => by
    rw [List.foldl_cons, sfPrefix_succ]
    have h := mem_subfolderFold_prefix tags tg htg subs (cur ++ sub ++ ['/'])
      (pushTags (cur ++ sub ++ ['/']) tags acc) k (Nat.lt_of_succ_lt_succ hk)
    have e : (subfolderStep tags (cur, acc) sub)
        = (cur ++ sub ++ ['/'], pushTags (cur ++ sub ++ ['/']) tags acc) := rfl
    rw [e]
    exact h

theorem mem_fileFold_of_mem (tpl : Nat) :
    ∀ (files : List VFile) (acc : List Str) (y : Str), y ∈ acc →
      y ∈ files.foldl (fileStep tpl) acc
  | [], _, _, hy => hy
  | f :: files, acc, y, hy => by
    apply mem_fileFold_of_mem tpl files
    unfold fileStep
    rcases f.tags with _ | ⟨_ | ⟨t, ts⟩⟩
    · exact hy
    · exact hy
    · exact mem_subfolderFold_of_mem _ _ _ y hy

theorem mem_fileFold_self (tpl : Nat) :
    ∀ (files : List VFile) (acc : List Str) (f : VFile), f ∈ files →
      ∀ (t : Str) (ts : List Str), f.tags = some (t :: ts) →
      ∀ tag ∈ t :: ts, ∀ k, k < (splitChar '/' (f.parentPath.drop tpl)).length →
      sfPrefix [] (splitChar '/' (f.parentPath.drop tpl)) (k + 1)
          ++ replaceFirst '/' ' ' tag
        ∈ files.foldl (fileStep tpl) acc
  | [], _, f, hf, _, _, _, _, _, _, _ => absurd hf (List.not_mem_nil f)
  | f' :: files, acc, f, hf, t, ts, hft, tag, htag, k, hk => by
    rcases List.mem_cons.mp hf with h | h
    · subst h
      apply mem_fileFold_of_mem tpl files
      unfold fileStep
      rw [hft]
      exact mem_subfolderFold_prefix ((t :: ts).map (replaceFirst '/' ' '))
        (replaceFirst '/' ' ' tag) (List.mem_map_of_mem _ htag)
        (splitChar '/' (f.parentPath.drop tpl)) [] acc k hk
    · exact mem_fileFold_self tpl files (fileStep tpl acc f') f h t ts hft
        tag htag k hk

/-- Each per-ancestor-prefix candidate of a file kept by the filter is in
the subfolder-derivation block's output. -/
theorem mem_subfolderTagNames (env : Vault) (filter_path things_path : Str)
    (f : VFile) (hf : f ∈ env.files)
    (hpre : (filter_path ++ ['/']).isPrefixOf f.parentPath = true)
    (t : Str) (ts : List Str) (hft : f.tags = some (t :: ts))
    (tag : Str) (htag : tag ∈ t :: ts)
    (k : Nat)
    (hk : k < (splitChar '/' (f.parentPath.drop (things_path.length + 1))).length) :
    sfPrefix [] (splitChar '/' (f.parentPath.drop (things_path.length + 1))) (k + 1)
        ++ replaceFirst '/' ' ' tag
      ∈ subfolderTagNames env filter_path things_path := by
  have hmem : f ∈ env.files.filter
      (fun f => (filter_path ++ ['/']).isPrefixOf f.parentPath) :=
    List.mem_filter.mpr ⟨hf, hpre⟩
  exact mem_fileFold_self (things_path.length + 1) _ [] f hmem t ts hft
    tag htag k hk

/-! ### The claims -/

/-- C9: the regular matcher satisfies the four concrete equations
`regularViewMatchesTags "a b" ["a/b/c"] = true`,
`regularViewMatchesTags "a b" ["a/x"] = false`,
`regularViewMatchesTags "x" ["x/y"] = true` and
`regularViewMatchesTags "x" [] = false`. -/
theorem c9_regular_matcher_equations :
    regularViewMatchesTags (str "a b") [str "a/b/c"] = true ∧
    regularViewMatchesTags (str "a b") [str "a/x"] = false ∧
    regularViewMatchesTags (str "x") [str "x/y"] = true ∧
    regularViewMatchesTags (str "x") [] = false := by
  refine ⟨by decide, by decide, by decide, by decide⟩

/-- C10: `getInitiatedViewNames` selects files by a bare `startsWith` on
the views path, with no following separator required: the file
`ViewsExtra/a.md`, which is not under the views root `Views` (its path
does not start with `Views/`), is still included in the initiated list,
under the truncated, mangled name `xtra/a`. -/
theorem c10_initiated_prefix_overmatch :
    (str "Views/").isPrefixOf (str "ViewsExtra/a.md") = false ∧
    getInitiatedViewNames envSibling (str "Views") = [str "xtra/a"] := by
  refine ⟨by decide, by decide⟩

/-- C4 counterexample: `trimSlashes` is not idempotent on every string:
`trimSlashes "///" = "/"` but `trimSlashes (trimSlashes "///") = ""`,
so the two differ. -/
theorem c4_counterexample :
    trimSlashes (str "///") = str "/" ∧
    trimSlashes (trimSlashes (str "///")) = str "" ∧
    (trimSlashes (trimSlashes (str "///")) == trimSlashes (str "///")) = false := by
  refine ⟨by decide, by decide, by decide⟩

/-- C4 (amended): `trimSlashes` strips exactly one leading and one
trailing `/` when present and never recurses (`"///"` becomes `"/"`),
`trimSlashes "/a/b/" = "a/b"`, `trimSlashes "a/b" = "a/b"`, and it is
idempotent on every string that does not begin and does not end with a
double slash `"//"`. -/
theorem c4_trimSlashes_amended :
    trimSlashes (str "/a/b/") = str "a/b" ∧
    trimSlashes (str "a/b") = str "a/b" ∧
    trimSlashes (str "///") = str "/" ∧
    ∀ s : Str, ¬ ['/', '/'] <+: s → ¬ ['/', '/'] <:+ s →
      trimSlashes (trimSlashes s) = trimSlashes s := by
  refine ⟨by decide, by decide, by decide, fun s h1 h2 => ?_⟩
  exact trimSlashes_of_no_slash (trimSlashes s) (trimSlashes_head s h1)
    (trimSlashes_getLast s h2)

/-- C1 counterexample: with the default tables, the core custom tag
`Archive` (whose rule allows only the view `Archive`) makes
`viewMatchesTags "All" ["Archive"]` return `false`, so `"All"` does not
match every tag list. -/
theorem c1_counterexample :
    viewMatchesTags cfgDefault envEmpty [] [] (str "All") (some [str "Archive"])
      = false := by decide

/-- C1 (amended): with the default built-in and empty user rule tables,
`viewMatchesTags "All" T = true` for every tag list `T` that does not
contain the tag `Archive` (the one default tag whose rule excludes
`All`). -/
theorem c1_all_matches (env : Vault) (T : List Str) (h : str "Archive" ∉ T) :
    viewMatchesTags cfgDefault env [] [] (str "All") (some T) = true := by
  simp only [viewMatchesTags, Option.getD]
  have hall : T.all (fun tag_name =>
      tagRuleCheck [] (trimSlashes (str "All")) tag_name) = true := by
    rw [List.all_eq_true]
    intro t ht
    have hb : (t == str "Archive") = false :=
      beq_eq_false_iff_ne.mpr (fun he => h (he ▸ ht))
    simp [tagRuleCheck, coreCustomTags, List.lookup, hb]
  rw [hall, if_pos rfl]
  rfl

/-- C1 witness: the amended theorem at the concrete tag list `["x"]`. -/
theorem c1_all_matches_witness :
    viewMatchesTags cfgDefault envEmpty [] [] (str "All") (some [str "x"]) = true :=
  c1_all_matches envEmpty [str "x"] (by decide)

/-- C6 counterexample: with the default tables, the tag rule for
`Archive` resolves to `archiveRule`, which returns `false` on the view
name `/Archive`, yet `viewMatchesTags "/Archive" ["Archive"]` is `true`:
the code applies the rule to the trimmed name `Archive` (where it is
true) and then regular-matches. -/
theorem c6_counterexample :
    resolveTagRule [] (str "Archive") = some archiveRule ∧
    archiveRule (str "/Archive") = false ∧
    viewMatchesTags cfgDefault envEmpty [] [] (str "/Archive")
      (some [str "Archive"]) = true := by
  refine ⟨rfl, by decide, by decide⟩

/-- C6 (amended): for every view name `V` and singleton tag list `[t]`,
if a tag rule for `t` resolves (user table first, then built-in) and that
rule applied to the TRIMMED view name returns false, then
`viewMatchesTags V [t]` returns false, regardless of any custom view rule
or regular-match outcome. -/
theorem c6_tag_rule_veto (cfg : Config) (env : Vault)
    (custom_views : CustomViews) (custom_tags : CustomTags) (V t : Str)
    (r : Str → Bool) (h1 : resolveTagRule custom_tags t = some r)
    (h2 : r (trimSlashes V) = false) :
    viewMatchesTags cfg env custom_views custom_tags V (some [t]) = false := by
  have hcheck : tagRuleCheck custom_tags (trimSlashes V) t = false := by
    unfold tagRuleCheck
    unfold resolveTagRule at h1
    cases hu : List.lookup t custom_tags with
    | some r' =>
      rw [hu] at h1
      have : r' = r := Option.some.inj h1
      rw [this]
      exact h2
    | none =>
      rw [hu] at h1
      cases hc : List.lookup t coreCustomTags with
      | some r' =>
        rw [hc] at h1
        have : r' = r := Option.some.inj h1
        rw [this]
        exact h2
      | none =>
        rw [hc] at h1
        exact absurd h1 (by simp [Option.orElse])
  simp only [viewMatchesTags, Option.getD]
  have hall : [t].all (fun tag_name =>
      tagRuleCheck custom_tags (trimSlashes V) tag_name) = false := by
    simp only [List.all_cons, List.all_nil, Bool.and_true]
    exact hcheck
  rw [hall]
  simp

/-- C6 witness: the amended theorem at the user tag rule
`t ↦ (view == "Q")`, the view `P` and the tag list `["t"]`. -/
theorem c6_tag_rule_veto_witness :
    viewMatchesTags cfgDefault envEmpty [] [(str "t", qOnlyRule)] (str "P")
      (some [str "t"]) = false :=
  c6_tag_rule_veto cfgDefault envEmpty [] [(str "t", qOnlyRule)] (str "P")
    (str "t") qOnlyRule rfl (by decide)

/-- C5: the custom-view lookup of `viewMatchesTags`, for a trimmed view
name, tries exactly the variant order `[full name, suffix at s2, …, leaf,
"/" + full name]` (`variantSearchOrder`), checks the user table before
the built-in table at each variant, and — whenever the tag-rule pass
allows and some variant is a key in either table — returns the predicate
of the first such variant applied to the tag list
(`claimResolveViewRule`, worded from the spec). -/
theorem c5_variant_search (cfg : Config) (env : Vault)
    (custom_views : CustomViews) (custom_tags : CustomTags)
    (view_name : Str) (T : List Str) (p : List Str → Bool)
    (h1 : T.all (fun tag_name =>
        tagRuleCheck custom_tags (trimSlashes view_name) tag_name) = true)
    (h2 : claimResolveViewRule custom_views (coreCustomViews cfg env)
        (variantSearchOrder (trimSlashes view_name)) = some p) :
    viewMatchesTags cfg env custom_views custom_tags view_name (some T) = p T := by
  simp only [viewMatchesTags, Option.getD]
  rw [h1, if_pos rfl, matchingViewNames_eq,
    ← claimResolveViewRule_eq_findSome custom_views (coreCustomViews cfg env), h2]

/-- C5 witness: the theorem applied at the user custom view `b/c` with a
constantly-true predicate, the view name `a/b/c` and the tag list
`["q"]`. -/
theorem c5_variant_search_witness :
    viewMatchesTags cfgDefault envEmpty [(str "b/c", truePred)] []
      (str "a/b/c") (some [str "q"]) = truePred [str "q"] :=
  c5_variant_search cfgDefault envEmpty [(str "b/c", truePred)] []
    (str "a/b/c") [str "q"] truePred (by decide) rfl

/-- C7 counterexample: at the untrimmed name `All/` and the empty tag
list, no variant of `All/` (per the claim's own variant list) is a key of
either custom-view table and no tag rule applies, yet
`viewMatchesTags "All/" []` is `true` (the code looks up variants of the
TRIMMED name `All`, hitting the core view `All`) while
`regularViewMatchesTags "All/" []` is `false`. -/
theorem c7_counterexample :
    (∀ m ∈ variantSearchOrder (str "All/"),
      m ∉ ([] : CustomViews).map Prod.fst ∧
      m ∉ (coreCustomViews cfgDefault envEmpty).map Prod.fst) ∧
    viewMatchesTags cfgDefault envEmpty [] [] (str "All/") (some []) = true ∧
    regularViewMatchesTags (str "All/") [] = false := by
  refine ⟨by decide, by decide, by decide⟩

/-- C7 (amended): for every view name `V` already free of a leading and
trailing slash (`trimSlashes V = V`) and tag list `T`, if no variant of
`V` (full name, suffixes, leaf, `/`-anchored form) is a key of either
custom-view table and no tag of `T` is a key of either custom-tag table,
then `viewMatchesTags V T = regularViewMatchesTags V T`. -/
theorem c7_regular_fallback (cfg : Config) (env : Vault)
    (custom_views : CustomViews) (custom_tags : CustomTags) (V : Str)
    (T : List Str) (h0 : trimSlashes V = V)
    (h1 : ∀ m ∈ variantSearchOrder V,
      m ∉ custom_views.map Prod.fst ∧
      m ∉ (coreCustomViews cfg env).map Prod.fst)
    (h2 : ∀ t ∈ T, t ∉ custom_tags.map Prod.fst ∧ t ∉ coreCustomTagNames) :
    viewMatchesTags cfg env custom_views custom_tags V (some T)
      = regularViewMatchesTags V T := by
  simp only [viewMatchesTags, Option.getD, h0]
  have hall : T.all (fun tag_name => tagRuleCheck custom_tags V tag_name) = true := by
    rw [List.all_eq_true]
    intro t ht
    obtain ⟨hu, hc⟩ := h2 t ht
    unfold tagRuleCheck
    rw [lookup_eq_none_of_not_mem_keys t custom_tags hu,
      lookup_eq_none_of_not_mem_keys t coreCustomTags hc]
  have hnone : (matchingViewNames V).findSome? (fun m =>
      (List.lookup m custom_views).orElse
        (fun _ => List.lookup m (coreCustomViews cfg env))) = none := by
    rw [matchingViewNames_eq, List.findSome?_eq_none_iff]
    intro m hm
    obtain ⟨hu, hc⟩ := h1 m hm
    rw [lookup_eq_none_of_not_mem_keys m custom_views hu,
      lookup_eq_none_of_not_mem_keys m (coreCustomViews cfg env) hc]
    rfl
  rw [hall, if_pos rfl, hnone]

/-- C7 witness: the amended theorem at the view `Zed` and tag list
`["k"]` with the default tables (both sides evaluate to `false`). -/
theorem c7_regular_fallback_witness :
    viewMatchesTags cfgDefault envEmpty [] [] (str "Zed") (some [str "k"])
      = regularViewMatchesTags (str "Zed") [str "k"] :=
  c7_regular_fallback cfgDefault envEmpty [] [] (str "Zed") [str "k"]
    (by decide) (by decide) (by decide)

/-- C2 counterexample: in the `src/config/core.js` revision of `Others`,
the mere presence of the initiated view `V`, whose name is a key of the
user custom-view table with a predicate that is false on the tag list,
already excludes the thing: `othersPredCore` returns `false` on the empty
tag list even though the view's own predicate returns `false` and no
regular match succeeds. -/
theorem c2_counterexample :
    List.lookup (str "V") cfgUserV.userViews = some falsePred ∧
    falsePred [] = false ∧
    regularViewMatchesTags (str "V") [] = false ∧
    getInitiatedViewNames envViewV cfgUserV.viewsPath = [str "V"] ∧
    othersPredCore cfgUserV envViewV [] = false := by
  refine ⟨rfl, rfl, by decide, by decide, by decide⟩

/-- C2 (amended): the claim holds of the later `part_003` revision of
`Others`: `othersPredPart3` returns `true` exactly when every initiated
view whose name is not a built-in (core) custom view name neither has a
user custom-view rule that is true on the tag list nor regular-matches
the tag list — so core names are ignored and a user view excludes a thing
only through its own predicate, not through mere name presence. -/
theorem c2_others_part3 (cfg : Config) (env : Vault) (tag_names : List Str) :
    othersPredPart3 cfg env tag_names = true ↔
      ∀ v ∈ getInitiatedViewNames env cfg.viewsPath, v ∉ coreCustomViewNames →
        (∀ p, List.lookup v cfg.userViews = some p → p tag_names = false) ∧
        regularViewMatchesTags v tag_names = false := by
  unfold othersPredPart3
  rw [List.all_eq_true]
  constructor
  · intro h v hv hnc
    have hb := h v hv
    rw [if_neg hnc, Bool.not_eq_true', Bool.or_eq_false_iff] at hb
    obtain ⟨hb1, hb2⟩ := hb
    refine ⟨fun p hp => ?_, hb2⟩
    rw [hp] at hb1
    exact hb1
  · intro h v hv
    by_cases hc : v ∈ coreCustomViewNames
    · rw [if_pos hc]
    · rw [if_neg hc, Bool.not_eq_true', Bool.or_eq_false_iff]
      obtain ⟨h1, h2⟩ := h v hv hc
      refine ⟨?_, h2⟩
      cases hp : List.lookup v cfg.userViews with
      | some p => exact h1 p hp
      | none => rfl

/-- C8 counterexample: two distinct cached files, `Views/a.md` and the
non-markdown `Views/a.xy`, both map to the initiated view name `a`, so
the initiated list of `getAllViews` is `["a", "a"]`, which has a
duplicate entry. -/
theorem c8_counterexample :
    (getAllViews envDupA true (str "Views") (str "Things") [] []).initiated
      = [str "a", str "a"] ∧
    ¬ (getAllViews envDupA true (str "Views") (str "Things") [] []).initiated.Nodup := by
  refine ⟨by decide, by decide⟩

/-- C8 (amended): every result of `getAllViews` has disjoint initiated
and uninitiated lists, a deduplicated uninitiated list, and both lists
sorted under the lexicographic order; the initiated list, however, may
contain duplicates (see the counterexample). -/
theorem c8_enumeration_invariants (env : Vault) (calc_sub : Bool)
    (views_path things_path : Str)
    (custom_views : CustomViews) (custom_tags : CustomTags) :
    (∀ x ∈ (getAllViews env calc_sub views_path things_path
        custom_views custom_tags).uninitiated,
      x ∉ (getAllViews env calc_sub views_path things_path
        custom_views custom_tags).initiated) ∧
    (getAllViews env calc_sub views_path things_path
      custom_views custom_tags).uninitiated.Nodup ∧
    (getAllViews env calc_sub views_path things_path
      custom_views custom_tags).initiated.Sorted strLe ∧
    (getAllViews env calc_sub views_path things_path
      custom_views custom_tags).uninitiated.Sorted strLe := by
  simp only [getAllViews]
  refine ⟨?_, ?_, ?_, ?_⟩
  · intro x hx
    have hx' := (sortStr_perm _).mem_iff.mp hx
    rcases dedupPush_mem _ _ _ x hx' with h | h
    · exact absurd h (List.not_mem_nil x)
    · exact h
  · exact ((sortStr_perm _).nodup_iff).mpr
      (dedupPush_nodup _ _ [] List.nodup_nil)
  · exact sortStr_sorted _
  · exact sortStr_sorted _

/-- C3 counterexample: in the `src/config/core.js` revision of
`getAllViews` (line 582), the subfolder filter tests
`file.parent.path.startsWith(views_path + "/")` — the views path — so at
`views_path = "Views"`, `things_path = "Things"` the thing
`Things/a/b/t.md` tagged `x` contributes no subfolder candidates: `a/x`
and `a/b/x` are absent from the uninitiated list. -/
theorem c3_counterexample :
    (getAllViews envThingAB true (str "Views") (str "Things") [] []).uninitiated
      = [str "All", str "Archive", str "Others", str "Untagged", str "x"] ∧
    str "a/x" ∉ (getAllViews envThingAB true (str "Views") (str "Things")
      [] []).uninitiated ∧
    str "a/b/x" ∉ (getAllViews envThingAB true (str "Views") (str "Things")
      [] []).uninitiated := by
  refine ⟨by decide, by decide, by decide⟩

/-- C3 (amended): the claim holds of the `part_003` revision, whose
subfolder filter tests `things_path + "/"` (part_003:862).  First
conjunct, in general: for every thing file kept by that filter (its
parent folder lies under the things path) with a nonempty tag list, every
tag on it and every ancestor-subfolder prefix (`k + 1` leading segments
of the parent path past the things-path prefix), the candidate
`prefix ++ tag` — tag separator already converted — is in the block's
output.  Second conjunct: at the concrete input, the `part_003`
enumeration lists the claimed candidates `a/x` and `a/b/x` (a tag `x` on
a thing in subfolder `a/b`) among the uninitiated views. -/
theorem c3_part3_subfolder_candidates :
    (∀ (env : Vault) (things_path : Str) (f : VFile), f ∈ env.files →
      (things_path ++ ['/']).isPrefixOf f.parentPath = true →
      ∀ (t : Str) (ts : List Str), f.tags = some (t :: ts) →
      ∀ tag ∈ t :: ts,
      ∀ k, k < (splitChar '/' (f.parentPath.drop (things_path.length + 1))).length →
      sfPrefix [] (splitChar '/' (f.parentPath.drop (things_path.length + 1))) (k + 1)
          ++ replaceFirst '/' ' ' tag
        ∈ subfolderTagNames env things_path things_path) ∧
    (getAllViewsPart3 envThingAB true (str "Views") (str "Things") [] []).uninitiated
      = [str "All", str "Archive", str "Others", str "Untagged",
         str "a/b/x", str "a/x", str "x"] := by
  constructor
  · intro env things_path f hf hpre t ts hft tag htag k hk
    exact mem_subfolderTagNames env things_path things_path f hf hpre t ts hft
      tag htag k hk
  · decide

end ThingList
